import Mathlib

/-!
Verification of the Pattern Learning & Confidence-Weighted Promotion Engine
(scripts/enhanced_learn.py, memory_learn.py, confidence_tracker.py,
query_patterns.py, claude_md_updater.py, auto_correction_detector.py).

Text is modelled as `List Char`.  Python floats are modelled as rationals.
The scripts' `re.findall` / `re.search` calls are modelled by a small
backtracking matcher over exactly the regex constructs those scripts use
(literals, `\s+`, `\s*`, lazy and greedy `.*` with or without DOTALL,
optional pieces, alternation of literals, `$`, capture groups); matching is
case-insensitive in the source (`re.IGNORECASE`), modelled by lowering the
subject before matching (all patterns are already lower case).
-/

namespace PatternLearning

/-- ASCII lowering, as Python `str.lower` acts on ASCII letters. -/
def lowerChar (c : Char) : Char :=
  if 'A' ≤ c ∧ c ≤ 'Z' then Char.ofNat (c.toNat + 32) else c

def lowerStr (s : List Char) : List Char := s.map lowerChar

/-- Python `\s` / `str.strip` whitespace, restricted to the ASCII range. -/
def isSpaceChar (c : Char) : Bool :=
  c = ' ' ∨ c = '\t' ∨ c = '\n' ∨ c = '\r' ∨ c = Char.ofNat 11 ∨ c = Char.ofNat 12

/-- Boolean prefix test on char lists. -/
def prefixOfB : List Char → List Char → Bool
  | [], _ => true
  | _ :: _, [] => false
  | a :: as, b :: bs => a = b && prefixOfB as bs

/-- Python's `needle in haystack` substring test. -/
def containsSub (needle : List Char) : List Char → Bool
  | [] => prefixOfB needle []
  | x :: xs => prefixOfB needle (x :: xs) || containsSub needle xs

/-- First index at which `needle` occurs in `hay` (Python `re.search` on a
literal pattern / `str.find`). -/
def indexOfSub (needle : List Char) : List Char → Option Nat
  | [] => if prefixOfB needle [] then some 0 else none
  | x :: xs =>
    if prefixOfB needle (x :: xs) then some 0
    else (indexOfSub needle xs).map (· + 1)

/-- Python `str.strip`. -/
def stripChars (s : List Char) : List Char :=
  ((s.dropWhile (isSpaceChar ·)).reverse.dropWhile (isSpaceChar ·)).reverse

/-! ### Association lists, modelling Python dicts keyed by id
Insertion overwrites in place when the key exists (as a Python dict does)
and appends otherwise. -/

def alistLookup {V : Type} (k : String) : List (String × V) → Option V
  | [] => none
  | (k', v) :: rest => if k' = k then some v else alistLookup k rest

def alistInsert {V : Type} (k : String) (v : V) : List (String × V) → List (String × V)
  | [] => [(k, v)]
  | (k', v') :: rest =>
    if k' = k then (k, v) :: rest else (k', v') :: alistInsert k v rest

theorem alistLookup_insert_self {V : Type} (k : String) (v : V) (l : List (String × V)) :
    alistLookup k (alistInsert k v l) = some v := by
  induction l with
  | nil => simp [alistInsert, alistLookup]
  | cons hd tl ih =>
    obtain ⟨k', v'⟩ := hd
    by_cases h : k' = k <;> simp [alistInsert, alistLookup, h, ih]

theorem alistLookup_insert_ne {V : Type} (k k' : String) (v : V) (l : List (String × V))
    (h : k' ≠ k) : alistLookup k' (alistInsert k v l) = alistLookup k' l := by
  induction l with
  | nil => simp [alistInsert, alistLookup, fun hh => h hh.symm ∘ Eq.symm, Ne.symm h]
  | cons hd tl ih =>
    obtain ⟨k₀, v₀⟩ := hd
    by_cases h₀ : k₀ = k
    · subst h₀
      simp [alistInsert, alistLookup, Ne.symm h]
    · simp [alistInsert, alistLookup, h₀, ih]

/-! ### The regex fragment used by the scripts -/

/-- Character classes occurring in the scripts' regexes. -/
inductive CharCls where
  | dotNL  -- `.` without DOTALL (anything but a newline)
  | dotAll -- `.` under `re.DOTALL`
  | ws     -- `\s`
deriving DecidableEq

def CharCls.mem : CharCls → Char → Bool
  | .dotNL, c => c ≠ '\n'
  | .dotAll, _ => true
  | .ws, c => isSpaceChar c

/-- Regexes, restricted to the constructs the scripts use.  Stars are only
ever applied to single-character classes in the source patterns. -/
inductive RE where
  | eps
  | lit (c : Char)
  | cls (cc : CharCls)
  | anchorEnd
  | cat (a b : RE)
  | alt (a b : RE)
  | starL (cc : CharCls)
  | starG (cc : CharCls)
  | plusG (cc : CharCls)
  | optG (a : RE)
  | grp (a : RE)
deriving DecidableEq

/-- Captured groups of one match, in group order. -/
abbrev Caps := List (List Char)

abbrev MRes := Option (Caps × List Char)

/-- Lazy star over a class: try the continuation first, then consume one
more class character, exactly Python's non-greedy preference order. -/
def runStarL (cc : CharCls) (k : List Char → MRes) : List Char → MRes
  | [] => k []
  | x :: xs =>
    match k (x :: xs) with
    | some r => some r
    | none => if cc.mem x then runStarL cc k xs else none

/-- Greedy star over a class: consume as much as possible and backtrack. -/
def runStarG (cc : CharCls) (k : List Char → MRes) : List Char → MRes
  | [] => k []
  | x :: xs =>
    if cc.mem x then
      match runStarG cc k xs with
      | some r => some r
      | none => k (x :: xs)
    else k (x :: xs)

/-- Backtracking matcher in continuation-passing style.  The continuation
receives the captures so far and the unconsumed suffix; the first success in
Python's preference order wins. -/
def matchC : RE → List Char → Caps → (Caps → List Char → MRes) → MRes
  | .eps, s, caps, k => k caps s
  | .lit _, [], _, _ => none
  | .lit c, x :: xs, caps, k => if x = c then k caps xs else none
  | .cls _, [], _, _ => none
  | .cls cc, x :: xs, caps, k => if cc.mem x then k caps xs else none
  | .anchorEnd, s, caps, k =>
    -- Python `$`: end of subject, or just before a trailing newline.
    if s = [] ∨ s = ['\n'] then k caps s else none
  | .cat a b, s, caps, k => matchC a s caps (fun caps' s' => matchC b s' caps' k)
  | .alt a b, s, caps, k =>
    match matchC a s caps k with
    | some r => some r
    | none => matchC b s caps k
  | .starL cc, s, caps, k => runStarL cc (fun s' => k caps s') s
  | .starG cc, s, caps, k => runStarG cc (fun s' => k caps s') s
  | .plusG _, [], _, _ => none
  | .plusG cc, x :: xs, caps, k =>
    if cc.mem x then runStarG cc (fun s' => k caps s') xs else none
  | .optG a, s, caps, k =>
    match matchC a s caps k with
    | some r => some r
    | none => k caps s
  | .grp a, s, caps, k =>
    matchC a s caps (fun caps' s' => k (caps' ++ [s.take (s.length - s'.length)]) s')

/-- Try to match `r` at the start of `s`. -/
def matchAt (r : RE) (s : List Char) : MRes :=
  matchC r s [] (fun caps s' => some (caps, s'))

/-- Python `re.findall`: scan left to right, collect non-overlapping
matches, advance past each match (by one position on a zero-width match).
The fuel argument only serves structural termination; the position
strictly advances at every step, so `length + 1` fuel is never exhausted
(`findAllAux_fuel_irrelevant`). -/
def findAllAux (r : RE) : Nat → List Char → List Caps
  | 0, _ => []
  | _ + 1, [] =>
    match matchAt r [] with
    | some (caps, _) => [caps]
    | none => []
  | fuel + 1, x :: xs =>
    match matchAt r (x :: xs) with
    | some (caps, rest) =>
      if rest.length < xs.length + 1 then caps :: findAllAux r fuel rest
      else caps :: findAllAux r fuel xs
    | none => findAllAux r fuel xs

def findAllFrom (r : RE) (s : List Char) : List Caps :=
  findAllAux r (s.length + 1) s

theorem findAllAux_fuel_irrelevant (r : RE) :
    ∀ f₁ f₂ s, s.length < f₁ → s.length < f₂ →
      findAllAux r f₁ s = findAllAux r f₂ s := by
  intro f₁
  induction f₁ with
  | zero => intro f₂ s h₁; omega
  | succ f ih =>
    intro f₂ s h₁ h₂
    obtain ⟨f₂', rfl⟩ : ∃ k, f₂ = k + 1 := ⟨f₂ - 1, by omega⟩
    match s with
    | [] => simp [findAllAux]
    | x :: xs =>
      simp only [List.length_cons] at h₁ h₂
      simp only [findAllAux]
      cases hm : matchAt r (x :: xs) with
      | none => exact ih f₂' xs (by omega) (by omega)
      | some pr =>
        obtain ⟨caps, rest⟩ := pr
        by_cases hlt : rest.length < xs.length + 1
        · simp only [if_pos hlt]
          rw [ih f₂' rest (by omega) (by omega)]
        · simp only [if_neg hlt]
          rw [ih f₂' xs (by omega) (by omega)]

/-- `re.search` as a Boolean: does `r` match anywhere in `s`? -/
def searchFrom (r : RE) : List Char → Bool
  | [] => (matchAt r []).isSome
  | x :: xs => (matchAt r (x :: xs)).isSome || searchFrom r xs

/-- A sequence of literal characters, continued by `rest`. -/
def strPat : List Char → RE → RE
  | [], r => r
  | c :: cs, r => .cat (.lit c) (strPat cs r)

/-- Concatenation of regex pieces. -/
def pcat (l : List RE) : RE := l.foldr RE.cat RE.eps

/-- Literal word as a standalone regex. -/
def strl (l : List Char) : RE := strPat l .eps

def strw (s : String) : RE := strPat s.data .eps

/-- The apostrophe character (appears in the source patterns). -/
def aposC : Char := Char.ofNat 39

/-- The characters of the word `don` + apostrophe + `t`. -/
def dontW : List Char := ['d', 'o', 'n', aposC, 't']

/-! ### Data model

One structure stands for the JSON objects stored under `entities` in
`learning_memory.json`.  The scripts read absent keys through `.get` with
a default; here every field is present, with the created records always
filling the fields the scripts read.  `correction` entities use
`pattern`/`original_text`, `observation` entities use `content`. -/

structure FeedbackEvent where
  feedback_type : String
  adjustment : ℚ
  timestamp : Nat
  user_text : List Char
deriving DecidableEq

structure Entity where
  typ : String := ""
  correction_type : String := ""
  pattern : Caps := []
  original_text : List Char := []
  content : List Char := []
  context : List String := []
  confidence : ℚ := 0
  created : Nat := 0
  applied_count : Nat := 0
  success_count : Nat := 0
  feedback_history : List FeedbackEvent := []
  promoted_to_claude_md : Bool := false
  promotion_date : Option Nat := none
  promotion_confidence : Option ℚ := none
  last_updated : Option Nat := none
deriving DecidableEq

/-- `learning_memory.json`: the `entities` dict plus
`stats.total_corrections` (the parts the verified operations touch). -/
structure Memory where
  entities : List (String × Entity)
  statsTotalCorrections : Nat
deriving DecidableEq

def emptyMemory : Memory := ⟨[], 0⟩

/-! ### enhanced_learn.py -/

/-- `correction_{timestamp}_{i}`; the `%Y%m%d_%H%M%S` timestamp token is
modelled as a natural number with one value per wall-clock second. -/
def correctionId (now i : Nat) : String :=
  "correction_" ++ toString now ++ "_" ++ toString i

def observationId (now : Nat) : String := "observation_" ++ toString now

structure Candidate where
  ctype : String
  fragments : Caps
deriving DecidableEq

/-- The six `(regex, correction_type)` pairs of `enhanced_learn.py`
(matched without DOTALL, so `.` is `dotNL`). -/
def elPatterns : List (RE × String) :=
  [ (pcat [strl dontW, .plusG .ws, .grp (.starL .dotNL), .lit ',', .starG .ws,
      .grp (.starG .dotNL)], "dont_do_instead"),
    (pcat [strw "use", .plusG .ws, .grp (.starL .dotNL), .plusG .ws, strw "instead",
      .plusG .ws, strw "of", .plusG .ws, .grp (.starL .dotNL)], "use_instead_of"),
    (pcat [strw "i", .plusG .ws, strw "prefer", .plusG .ws, .grp (.starG .dotNL)],
      "preference"),
    (pcat [strw "when", .plusG .ws, .grp (.starL .dotNL), .lit ',', .starG .ws,
      .grp (.starG .dotNL)], "context_behavior"),
    (pcat [strw "always", .plusG .ws, .grp (.starG .dotNL)], "always_rule"),
    (pcat [strw "never", .plusG .ws, .grp (.starG .dotNL)], "never_rule") ]

/-- `context_keywords` of `enhanced_learn.py`. -/
def contextKeywordsEL : List (String × List String) :=
  [ ("urgent", ["quick", "urgent", "asap", "fast"]),
    ("quality", ["careful", "thorough", "comprehensive"]),
    ("coding", ["function", "class", "import", "test", "code"]),
    ("review", ["pr", "review", "check"]),
    ("workflow", ["command", "process", "commit"]) ]

/-- Context detection over the lowered text; defaults to `["general"]`. -/
def detectContextsEL (textLower : List Char) : List String :=
  let tags := (contextKeywordsEL.filter
    (fun p => p.2.any (fun kw => containsSub kw.data textLower))).map Prod.fst
  if tags = [] then ["general"] else tags

/-- The correction candidates found for one input: all six patterns in
order, all matches of each (`re.findall` with IGNORECASE). -/
def detectCorrectionsEL (text : List Char) : List Candidate :=
  (elPatterns.map
    (fun p => (findAllFrom p.1 (lowerStr text)).map (fun caps => ⟨p.2, caps⟩))).flatten

def mkCorrectionEL (now : Nat) (c : Candidate) (text : List Char)
    (ctxs : List String) : Entity :=
  { typ := "user_correction", correction_type := c.ctype, pattern := c.fragments,
    original_text := text, context := ctxs, confidence := (4 : ℚ)/5, created := now }

def mkObservationEL (now : Nat) (text : List Char) (ctxs : List String) : Entity :=
  { typ := "general_observation", content := text, context := ctxs, created := now }

/-- The storage loop of `enhanced_learn`: one entity per candidate, id
suffixed with the position, stats counter bumped per correction. -/
def storeCorrectionsEL (now : Nat) (text : List Char) (ctxs : List String) :
    Nat → List Candidate → Memory → Memory
  | _, [], mem => mem
  | i, c :: rest, mem =>
    storeCorrectionsEL now text ctxs (i + 1) rest
      { entities := alistInsert (correctionId now i) (mkCorrectionEL now c text ctxs)
          mem.entities,
        statsTotalCorrections := mem.statsTotalCorrections + 1 }

/-- `enhanced_learn(learning_content)` acting on an already-loaded store;
`now` is the second-resolution timestamp of the call. -/
def enhancedLearn (mem : Memory) (text : List Char) (now : Nat) : Memory :=
  let ctxs := detectContextsEL (lowerStr text)
  let cands := detectCorrectionsEL text
  if cands = [] then
    { mem with entities :=
        alistInsert (observationId now) (mkObservationEL now text ctxs) mem.entities }
  else
    storeCorrectionsEL now text ctxs 0 cands mem

/-! ### confidence_tracker.py -/

inductive FeedbackType where
  | positive
  | negative
  | correction
  | neutral
deriving DecidableEq

def FeedbackType.name : FeedbackType → String
  | .positive => "positive"
  | .negative => "negative"
  | .correction => "correction"
  | .neutral => "neutral"

/-- The ten `positive` keyword regexes (plain words, so a `re.search` is a
substring test). -/
def positiveKeywords : List (List Char) :=
  ["good".data, "great".data, "perfect".data, "excellent".data, "thanks".data,
   "correct".data, "right".data, "yes".data, "exactly".data, "nice".data]

/-- The ten `negative` keyword regexes; `don't` carries an apostrophe. -/
def negativeKeywords : List (List Char) :=
  ["wrong".data, "incorrect".data, "no".data, "actually".data, dontW,
   "error".data, "mistake".data, "fix".data, "change".data, "instead".data]

/-- The five `correction` regexes, each of the form `A.*B` (no DOTALL). -/
def correctionPairs : List (List Char × List Char) :=
  [(dontW, "do".data), ("use".data, "instead".data), ("actually".data, "should".data),
   ("prefer".data, "not".data), ("wrong".data, "should".data)]

/-- `A.*B` as a regex over the scripts' constructs. -/
def seqRE (a b : List Char) : RE := strPat a (.cat (.starG .dotNL) (strl b))

/-- Number of keywords of `kws` that `re.search` finds in `r`. -/
def keywordHits (kws : List (List Char)) (r : List Char) : Nat :=
  (kws.filter (fun w => containsSub w r)).length

/-- `ConfidenceTracker.detect_feedback_type`: corrections first, then the
keyword counts, with `negative` only on a strict majority. -/
def detectFeedbackType (userResponse : List Char) : FeedbackType :=
  let r := lowerStr userResponse
  if correctionPairs.any (fun p => searchFrom (seqRE p.1 p.2) r) then .correction
  else
    let pos := keywordHits positiveKeywords r
    let neg := keywordHits negativeKeywords r
    if pos < neg then .negative
    else if 0 < pos then .positive
    else .neutral

/-- The confidence adjustment table of `update_pattern_confidence`. -/
def adjustment : FeedbackType → ℚ
  | .positive => (1 : ℚ)/10
  | .neutral => 0
  | .negative => -((3 : ℚ)/20)
  | .correction => -((1 : ℚ)/4)

/-- `max(0.0, min(1.0, x))`. -/
def clamp01 (x : ℚ) : ℚ := max 0 (min 1 x)

/-- The per-pattern mutation performed by `update_pattern_confidence` for a
feedback of type `ft` arriving at time `now` with text `fb`. -/
def applyFeedback (ft : FeedbackType) (now : Nat) (fb : List Char) (p : Entity) :
    Entity :=
  { p with
    confidence := clamp01 (p.confidence + adjustment ft),
    last_updated := some now,
    applied_count := p.applied_count + 1,
    success_count :=
      if ft = .positive ∨ ft = .neutral then p.success_count + 1 else p.success_count,
    feedback_history :=
      p.feedback_history ++ [⟨ft.name, adjustment ft, now, fb.take 100⟩] }

/-- One iteration of the `for pattern_id in pattern_ids` loop of
`update_pattern_confidence`: ids absent from the store are skipped. -/
def upcStep (ft : FeedbackType) (fb : List Char) (now : Nat) (m : Memory)
    (pid : String) : Memory :=
  match alistLookup pid m.entities with
  | some p =>
    { m with entities := alistInsert pid (applyFeedback ft now fb p) m.entities }
  | none => m

/-- `ConfidenceTracker.update_pattern_confidence` on a loaded store: every
supplied id that is present is mutated; the rest of the function only
formats the report. -/
def updatePatternConfidence (mem : Memory) (patternIds : List String)
    (userFeedback : List Char) (now : Nat) : Memory :=
  patternIds.foldl (upcStep (detectFeedbackType userFeedback) userFeedback now) mem

/-! ### memory_learn.py confidence update -/

/-- `memory_learn.update_pattern_confidence` applied to one entity: clamp
into [0,1], bump `success_count` only for a positive adjustment, always
bump `applied_count`. -/
def mlApplyAdjustment (adj : ℚ) (now : Nat) (p : Entity) : Entity :=
  { p with
    confidence := max 0 (min 1 (p.confidence + adj)),
    last_updated := some now,
    success_count := if 0 < adj then p.success_count + 1 else p.success_count,
    applied_count := p.applied_count + 1 }

/-! ### Sorting

Python's `sorted(..., key=..., reverse=True)` and `list.sort` produce a
permutation of the input that is pairwise-ordered under the key.  The
claims under verification only speak about membership and the descending
order, so the sort is modelled by a structural insertion sort for the
Boolean preorder `le`; tie order is unspecified in the model. -/

def insertByLe {α : Type} (le : α → α → Bool) (x : α) : List α → List α
  | [] => [x]
  | y :: ys => if le x y && !(le y x) then x :: y :: ys else y :: insertByLe le x ys

def stableSortBy {α : Type} (le : α → α → Bool) : List α → List α
  | [] => []
  | x :: xs => insertByLe le x (stableSortBy le xs)

theorem insertByLe_eq_pos {α : Type} (le : α → α → Bool) (x y : α) (ys : List α)
    (h : (le x y && !(le y x)) = true) :
    insertByLe le x (y :: ys) = x :: y :: ys := by
  simp [insertByLe, h]

theorem insertByLe_eq_neg {α : Type} (le : α → α → Bool) (x y : α) (ys : List α)
    (h : ¬((le x y && !(le y x)) = true)) :
    insertByLe le x (y :: ys) = y :: insertByLe le x ys := by
  simp [insertByLe, h]

theorem mem_insertByLe {α : Type} (le : α → α → Bool) (x a : α) (l : List α) :
    a ∈ insertByLe le x l ↔ a = x ∨ a ∈ l := by
  induction l with
  | nil => simp [insertByLe]
  | cons y ys ih =>
    by_cases h : (le x y && !(le y x)) = true
    · rw [insertByLe_eq_pos le x y ys h]
      simp [List.mem_cons]
    · rw [insertByLe_eq_neg le x y ys h]
      simp only [List.mem_cons, ih]
      tauto

theorem insertByLe_perm {α : Type} (le : α → α → Bool) (x : α) (l : List α) :
    (insertByLe le x l).Perm (x :: l) := by
  induction l with
  | nil => simp [insertByLe]
  | cons y ys ih =>
    by_cases h : (le x y && !(le y x)) = true
    · rw [insertByLe_eq_pos le x y ys h]
    · rw [insertByLe_eq_neg le x y ys h]
      exact (ih.cons y).trans (List.Perm.swap x y ys)

theorem stableSortBy_perm {α : Type} (le : α → α → Bool) (l : List α) :
    (stableSortBy le l).Perm l := by
  induction l with
  | nil => simp [stableSortBy]
  | cons x xs ih =>
    exact (insertByLe_perm le x (stableSortBy le xs)).trans (ih.cons x)

theorem pairwise_insertByLe {α : Type} (le : α → α → Bool)
    (htotal : ∀ a b, le a b = true ∨ le b a = true)
    (htrans : ∀ a b c, le a b = true → le b c = true → le a c = true)
    (x : α) (l : List α) (hl : l.Pairwise (fun a b => le a b = true)) :
    (insertByLe le x l).Pairwise (fun a b => le a b = true) := by
  induction l with
  | nil => simp [insertByLe]
  | cons y ys ih =>
    rcases List.pairwise_cons.mp hl with ⟨hy, hys⟩
    by_cases h : (le x y && !(le y x)) = true
    · rw [insertByLe_eq_pos le x y ys h]
      have hxy : le x y = true := by
        cases hxy' : le x y
        · simp [hxy'] at h
        · rfl
      refine List.pairwise_cons.mpr ⟨?_, hl⟩
      intro b hb
      rcases List.mem_cons.mp hb with rfl | hb
      · exact hxy
      · exact htrans x y b hxy (hy b hb)
    · rw [insertByLe_eq_neg le x y ys h]
      refine List.pairwise_cons.mpr ⟨?_, ih hys⟩
      intro b hb
      rcases (mem_insertByLe le x b ys).mp hb with rfl | hb
      · cases hyx : le y b
        · exfalso
          rcases htotal b y with hx | hx
          · exact h (by simp [hx, hyx])
          · rw [hx] at hyx
            cases hyx
        · rfl
      · exact hy b hb

theorem pairwise_stableSortBy {α : Type} (le : α → α → Bool)
    (htotal : ∀ a b, le a b = true ∨ le b a = true)
    (htrans : ∀ a b c, le a b = true → le b c = true → le a c = true)
    (l : List α) : (stableSortBy le l).Pairwise (fun a b => le a b = true) := by
  induction l with
  | nil => simp [stableSortBy]
  | cons x xs ih => exact pairwise_insertByLe le htotal htrans x _ ih

/-! ### claude_md_updater.py -/

/-- `ClaudeMdUpdater.get_promotable_patterns` filter: `user_correction`
entities with `confidence >= 0.9 and applications >= 5 and
success_rate >= 0.8` where `success_rate = success_count / max(1,
applications)`. -/
def promotablePred (p : Entity) : Bool :=
  decide (p.typ = "user_correction") && decide ((9 : ℚ)/10 ≤ p.confidence) &&
  decide (5 ≤ p.applied_count) &&
  decide ((4 : ℚ)/5 ≤ (p.success_count : ℚ) / ((max 1 p.applied_count : ℕ) : ℚ))

def confDescLe (a b : String × Entity) : Bool :=
  decide (b.2.confidence ≤ a.2.confidence)

/-- Promotable entities, sorted by confidence descending
(`sorted(promotable, key=confidence, reverse=True)`). -/
def getPromotable (mem : Memory) : List (String × Entity) :=
  stableSortBy confDescLe (mem.entities.filter (fun e => promotablePred e.2))

def joinWith (sep : String) : List String → String
  | [] => ""
  | [x] => x
  | x :: xs => x ++ sep ++ joinWith sep xs

def aposS : String := String.mk [aposC]

/-- Python list repr, as the f-strings render a multi-fragment `pattern`
value (a JSON list after the round trip). -/
def pyRepr (caps : Caps) : String :=
  "[" ++ joinWith ", " (caps.map (fun f => aposS ++ String.mk f ++ aposS)) ++ "]"

/-- The f-string rendering of the stored `pattern` value: single-group
matches were stored as plain strings, multi-group ones as lists. -/
def patternText (caps : Caps) : String :=
  match caps with
  | [f] => String.mk f
  | _ => pyRepr caps

/-- `ClaudeMdUpdater.format_pattern_as_rule`. -/
def formatPatternAsRule (p : Entity) : String :=
  if p.correction_type = "dont_do_instead" ∧ 2 ≤ p.pattern.length then
    "❌ NEVER " ++ String.mk (p.pattern.headD []) ++ " | ✅ ALWAYS " ++
      String.mk (p.pattern.getD 1 [])
  else if p.correction_type = "preference" then
    "✅ USER PREFERENCE: " ++ patternText p.pattern
  else if p.correction_type = "context_behavior" ∧ 2 ≤ p.pattern.length then
    "⚠️ CONTEXT RULE: When " ++ String.mk (p.pattern.headD []) ++ ", " ++
      String.mk (p.pattern.getD 1 [])
  else if p.correction_type = "always_rule" then
    "✅ ALWAYS: " ++ patternText p.pattern
  else if p.correction_type = "never_rule" then
    "❌ NEVER: " ++ patternText p.pattern
  else
    "📝 LEARNED RULE: " ++ patternText p.pattern ++ " (context: " ++
      joinWith ", " p.context ++ ")"

/-- Floor of a nonnegative rational (the only use sites pass values in
`[0, 1]` scaled by 100). -/
def ratFloor (q : ℚ) : ℤ := Int.fdiv q.num q.den

/-- Round half to even, as Python's `format` does on the decimal value. -/
def roundHE (q : ℚ) : ℤ :=
  let f : ℤ := ratFloor q
  if q - f < (1 : ℚ)/2 then f
  else if (1 : ℚ)/2 < q - f then f + 1
  else if f % 2 = 0 then f else f + 1

def pad2 (n : Nat) : String := if n < 10 then "0" ++ toString n else toString n

/-- `f"{x:.2f}"` for the nonnegative confidences being rendered. -/
def fmt2 (x : ℚ) : String :=
  let m : Nat := (roundHE (x * 100)).toNat
  toString (m / 100) ++ "." ++ pad2 (m % 100)

/-- One generated line of the learned-rules section. -/
def ruleLine (p : Entity) : List Char :=
  ("- " ++ formatPatternAsRule p ++ " (learned: " ++ fmt2 p.confidence ++
    " confidence, " ++ toString p.applied_count ++ " applications)").data

def insertionHeaders : List String :=
  ["## Development Guidelines", "## Code Standards", "## Testing",
   "## Critical Lessons", "## Project-Specific"]

/-- `ClaudeMdUpdater.find_insertion_point`: first known section header
found in the document; the replaced span runs to the next `\n## ` or the
end; falls back to (end, end). -/
def findInsertionAux (content : List Char) : List String → Nat × Nat
  | [] => (content.length, content.length)
  | h :: rest =>
    match indexOfSub h.data content with
    | some i =>
      let start := i + h.data.length
      match indexOfSub "\n## ".data (content.drop start) with
      | some j => (start, start + j)
      | none => (start, content.length)
    | none => findInsertionAux content rest

def findInsertionPoint (content : List Char) : Nat × Nat :=
  findInsertionAux content insertionHeaders

def joinCharLists (sep : List Char) : List (List Char) → List Char
  | [] => []
  | [x] => x
  | x :: xs => x ++ sep ++ joinCharLists sep xs

/-- The generated learned-rules sub-section (the `%Y-%m-%d %H:%M:%S`
timestamp is the same second token as elsewhere). -/
def learnedSection (newRules : List (List Char)) (now : Nat) : List Char :=
  ("\n\n### 🧠 Learned Rules (Auto-Generated from Experience)\n" ++
    "*Rules promoted from dynamic learning system based on user corrections*\n\n").data
  ++ joinCharLists "\n".data newRules
  ++ ("\n\n*Last updated: " ++ toString now ++ "*\n").data

def markPromotedEntity (now : Nat) (conf : ℚ) (p : Entity) : Entity :=
  { p with
    promoted_to_claude_md := true,
    promotion_date := some now,
    promotion_confidence := some conf }

/-- One iteration of `_mark_patterns_promoted`: the promotion confidence
recorded is the one captured in the promotable report entry. -/
def markStep (now : Nat) (m : Memory) (pd : String × Entity) : Memory :=
  match alistLookup pd.1 m.entities with
  | some p =>
    { m with entities :=
        alistInsert pd.1 (markPromotedEntity now pd.2.confidence p) m.entities }
  | none => m

/-- `ClaudeMdUpdater._mark_patterns_promoted`. -/
def markPatternsPromoted (promoted : List (String × Entity)) (now : Nat)
    (mem : Memory) : Memory :=
  promoted.foldl (markStep now) mem

/-- The file-system state the promotion engine touches: the pattern store,
the rules document (`CLAUDE.md`, `none` when absent) and the backup
directory. -/
structure SysState where
  memory : Memory
  claudeMd : Option (List Char)
  backups : List (String × List Char)
deriving DecidableEq

def backupName (now : Nat) : String :=
  "CLAUDE_md_backup_" ++ toString now ++ ".md"

inductive PromoteStatus where
  | noPatterns
  | errorNoDoc
  | dryRun
  | success
deriving DecidableEq

/-- `ClaudeMdUpdater.update_claude_md`.  The backup is taken from the
document content read before the generated section is spliced in; the
backup is written even on a dry run (the source calls `create_backup()`
before branching on `dry_run`). -/
def updateClaudeMd (st : SysState) (now : Nat) (dryRun : Bool) :
    SysState × PromoteStatus :=
  let promotable := getPromotable st.memory
  if promotable = [] then (st, .noPatterns)
  else
    match st.claudeMd with
    | none => (st, .errorNoDoc)
    | some original =>
      let backups' := alistInsert (backupName now) original st.backups
      let newRules := promotable.map (fun pd => ruleLine pd.2)
      let ip := findInsertionPoint original
      let newContent :=
        original.take ip.1 ++ learnedSection newRules now ++ original.drop ip.2
      if dryRun then ({ st with backups := backups' }, .dryRun)
      else
        ({ memory := markPatternsPromoted promotable now st.memory,
           claudeMd := some newContent, backups := backups' }, .success)

/-- `ClaudeMdUpdater.rollback_to_backup`: copy the named backup verbatim
over the rules document; `false` when the backup does not exist. -/
def rollbackToBackup (st : SysState) (name : String) : SysState × Bool :=
  match alistLookup name st.backups with
  | none => (st, false)
  | some content => ({ st with claudeMd := some content }, true)

/-! ### query_patterns.py and memory_learn.py queries -/

def lowerString (s : String) : String := String.mk (lowerStr s.data)

/-- The `if context_keywords:` filter stage of `query_patterns`; an empty
keyword list is falsy in Python, so it disables the filter. -/
def queryContextFilter (contextKeywords : List String) (l : List Entity) :
    List Entity :=
  if contextKeywords = [] then l
  else
    l.filter (fun c => (contextKeywords.map lowerString).any
      (fun kw => (c.context.map lowerString).contains kw))

/-- The `if correction_type:` filter stage of `query_patterns`. -/
def queryTypeFilter : Option String → List Entity → List Entity
  | none, l => l
  | some t, l => l.filter (fun c => decide (c.correction_type = t))

/-- `query_patterns(context_keywords, correction_type)`: the list the
script builds and sorts before formatting (it then prints the top five). -/
def queryPatterns (mem : Memory) (contextKeywords : List String)
    (correctionType : Option String) : List Entity :=
  stableSortBy (fun a b => decide (b.confidence ≤ a.confidence))
    (queryTypeFilter correctionType
      (queryContextFilter contextKeywords
        ((mem.entities.map Prod.snd).filter
          (fun e => decide (e.typ = "user_correction")))))

/-- `memory_learn.query_relevant_patterns`: context overlap plus the
`confidence > 0.6` threshold, in store order (no sort). -/
def queryRelevantPatterns (mem : Memory) (currentContext : List String) :
    List Entity :=
  (mem.entities.map Prod.snd).filter
    (fun e => decide (e.typ = "user_correction") &&
      e.context.any (fun c => currentContext.contains c) &&
      decide ((6 : ℚ)/10 < e.confidence))

/-! ### Store loading (memory_learn.load_memory / enhanced_learn) -/

/-- A parsed store document; fields may be absent in the JSON. -/
structure RawDoc where
  entities : Option (List (String × Entity))
  statsTotalCorrections : Option Nat
deriving DecidableEq

/-- The state of the backing file: absent, unparsable, or parsed. -/
inductive FileState where
  | missing
  | corrupt
  | parsed (doc : RawDoc)
deriving DecidableEq

/-- `memory_learn.load_memory`: a fresh empty structure on a missing file
or on `OSError`/`JSONDecodeError`; the parsed document otherwise. -/
def loadMemoryML : FileState → Memory
  | .missing => emptyMemory
  | .corrupt => emptyMemory
  | .parsed d => ⟨d.entities.getD [], d.statsTotalCorrections.getD 0⟩

/-- The load-and-normalise prologue of `enhanced_learn`: missing file or
parse error yield the default; a parsed document without an `entities` key
is replaced wholesale by the default; a missing `stats` key is defaulted
to zero corrections. -/
def loadMemoryEL : FileState → Memory
  | .missing => emptyMemory
  | .corrupt => emptyMemory
  | .parsed d =>
    match d.entities with
    | none => emptyMemory
    | some ents => ⟨ents, d.statsTotalCorrections.getD 0⟩

/-! ### auto_correction_detector.py -/

/-- `CorrectionDetector._calculate_confidence`'s boost table. -/
def confidenceBoost : String → ℚ
  | "dont_do_instead" => (1 : ℚ)/5
  | "use_instead" => (1 : ℚ)/5
  | "always_rule" => (1 : ℚ)/10
  | "never_rule" => (1 : ℚ)/10
  | "correction" => (3 : ℚ)/20
  | _ => 0

def imperativeWords : List (List Char) :=
  ["always".data, "never".data, "must".data, "should".data]

/-- `CorrectionDetector._calculate_confidence`: base 0.7 plus the category
boost, +0.1 for an imperative keyword, +0.05 for a comma or period, capped
at 1.0 by the final `min`. -/
def calculateConfidence (correctionType : String) (message : List Char) : ℚ :=
  let c := (7 : ℚ)/10 + confidenceBoost correctionType
  let c := if imperativeWords.any (fun w => containsSub w message) then c + (1 : ℚ)/10 else c
  let c := if containsSub [','] message || containsSub ['.'] message then c + (1 : ℚ)/20 else c
  min 1 c

/-- `CorrectionDetector.context_keywords`. -/
def contextKeywordsACD : List (String × List String) :=
  [ ("urgent", ["quick", "urgent", "asap", "immediately", "fast", "rush", "hurry"]),
    ("quality", ["careful", "thorough", "comprehensive", "detailed", "precise"]),
    ("coding", ["function", "class", "variable", "import", "test", "code", "script"]),
    ("review", ["pr", "review", "check", "verify", "approve", "merge"]),
    ("workflow", ["command", "process", "step", "procedure", "protocol"]),
    ("testing", ["test", "testing", "spec", "coverage", "validate"]),
    ("documentation", ["docs", "readme", "documentation", "comment"]),
    ("git", ["commit", "branch", "merge", "push", "pull", "git"]) ]

def detectContextACD (message : List Char) : List String :=
  let tags := (contextKeywordsACD.filter
    (fun p => p.2.any (fun kw => containsSub kw.data message))).map Prod.fst
  if tags = [] then ["general"] else tags

/-- The characters of the word `that` + apostrophe + `s`. -/
def thatsW : List Char := ['t', 'h', 'a', 't', aposC, 's']

def endOrDot : RE := .alt (.lit '.') .anchorEnd

/-- Lazy capture group `(.*?)` under DOTALL. -/
def gLazyA : RE := .grp (.starL .dotAll)

/-- `CorrectionDetector.patterns`, in source order; these are matched with
`re.IGNORECASE | re.DOTALL`. -/
def acdPatterns : List (String × List RE) :=
  [ ("dont_do_instead",
      [ pcat [strl dontW, .plusG .ws, gLazyA, .lit ',', .starG .ws, gLazyA, endOrDot],
        pcat [strl dontW, .plusG .ws, gLazyA, .lit '.', .starG .ws, gLazyA, endOrDot],
        pcat [strw "avoid", .plusG .ws, gLazyA, .lit ',', .starG .ws, gLazyA, endOrDot],
        pcat [strw "stop", .plusG .ws, gLazyA, .lit ',', .starG .ws, gLazyA, endOrDot] ]),
    ("use_instead",
      [ pcat [strw "use", .plusG .ws, gLazyA, .plusG .ws, strw "instead", .plusG .ws,
          strw "of", .plusG .ws, gLazyA, endOrDot],
        pcat [strw "prefer", .plusG .ws, gLazyA, .plusG .ws, strw "over", .plusG .ws,
          gLazyA, endOrDot],
        pcat [strw "choose", .plusG .ws, gLazyA, .plusG .ws, strw "not", .plusG .ws,
          gLazyA, endOrDot] ]),
    ("preference",
      [ pcat [strw "i", .plusG .ws, strw "prefer", .plusG .ws, gLazyA, endOrDot],
        pcat [strw "i", .plusG .ws, strw "like", .plusG .ws, gLazyA, endOrDot],
        pcat [strw "my", .plusG .ws, strw "preference", .plusG .ws, strw "is",
          .plusG .ws, gLazyA, endOrDot],
        pcat [strw "please", .plusG .ws, strw "use", .plusG .ws, gLazyA, endOrDot] ]),
    ("context_behavior",
      [ pcat [strw "when", .plusG .ws, gLazyA, .lit ',', .starG .ws, gLazyA, endOrDot],
        pcat [strw "if", .plusG .ws, gLazyA, .lit ',', .starG .ws, gLazyA, endOrDot],
        pcat [strw "during", .plusG .ws, gLazyA, .lit ',', .starG .ws, gLazyA, endOrDot],
        pcat [strw "for", .plusG .ws, gLazyA, .lit ',', .starG .ws, gLazyA, endOrDot] ]),
    ("always_rule",
      [ pcat [strw "always", .plusG .ws, gLazyA, endOrDot],
        pcat [strw "make", .plusG .ws, strw "sure", .plusG .ws, strw "to", .plusG .ws,
          gLazyA, endOrDot],
        pcat [strw "remember", .plusG .ws, strw "to", .plusG .ws, gLazyA, endOrDot] ]),
    ("never_rule",
      [ pcat [strw "never", .plusG .ws, gLazyA, endOrDot],
        pcat [strl dontW, .plusG .ws, strw "ever", .plusG .ws, gLazyA, endOrDot],
        pcat [strw "avoid", .plusG .ws, gLazyA, endOrDot] ]),
    ("correction",
      [ pcat [strw "actually", .optG (.lit ','), .plusG .ws, gLazyA, endOrDot],
        pcat [strw "no", .optG (.lit ','), .plusG .ws, gLazyA, endOrDot],
        pcat [strw "wrong", .optG (.lit ','), .plusG .ws, gLazyA, endOrDot],
        pcat [strw "incorrect", .optG (.lit ','), .plusG .ws, gLazyA, endOrDot] ]),
    ("mistake_fix",
      [ pcat [.optG (pcat [strl thatsW, .plusG .ws]),
          .alt (strw "wrong") (.alt (strw "incorrect") (strw "mistake")),
          .starL .dotAll, strw "should", .plusG .ws, strw "be", .plusG .ws,
          gLazyA, endOrDot],
        pcat [strw "fix", .starL .dotAll, .alt (strw "by") (strw "to"), .plusG .ws,
          gLazyA, endOrDot],
        pcat [strw "change", .starL .dotAll, .alt (strw "to") (strw "into"),
          .plusG .ws, gLazyA, endOrDot] ]) ]

structure ACDCandidate where
  ctype : String
  fragments : Caps
  confidence : ℚ
  context : List String
deriving DecidableEq

/-- `_deduplicate_corrections`'s scan: keep the first candidate for each
fragment tuple (the Python key is `str(correction["pattern"])`). -/
def dedupAux : List Caps → List ACDCandidate → List ACDCandidate
  | _, [] => []
  | seen, c :: rest =>
    if seen.contains c.fragments then dedupAux seen rest
    else c :: dedupAux (c.fragments :: seen) rest

/-- `CorrectionDetector._deduplicate_corrections`: sort by confidence
descending, then drop structural duplicates. -/
def deduplicateCorrections (l : List ACDCandidate) : List ACDCandidate :=
  dedupAux [] (stableSortBy (fun a b => decide (b.confidence ≤ a.confidence)) l)

/-- `CorrectionDetector.detect_corrections`: all patterns of all
categories against `message.lower().strip()`, then deduplication. -/
def detectCorrectionsACD (message : List Char) : List ACDCandidate :=
  let ml := stripChars (lowerStr message)
  let raw := (acdPatterns.map (fun tp =>
    (tp.2.map (fun r => (findAllFrom r ml).map (fun caps =>
      (⟨tp.1, caps, calculateConfidence tp.1 ml, detectContextACD ml⟩ : ACDCandidate)))).flatten)).flatten
  deduplicateCorrections raw

/-- Substring occurrence as a proposition. -/
def infixOf (a b : List Char) : Prop := ∃ u v, b = u ++ a ++ v

/-! ### Helper lemmas -/

theorem infixOf_append_left (a b c : List Char) (h : infixOf a b) :
    infixOf a (c ++ b) := by
  obtain ⟨u, v, rfl⟩ := h
  exact ⟨c ++ u, v, by simp⟩

theorem infixOf_append_right (a b c : List Char) (h : infixOf a b) :
    infixOf a (b ++ c) := by
  obtain ⟨u, v, rfl⟩ := h
  exact ⟨u, v ++ c, by simp⟩

theorem infixOf_joinCharLists (sep x : List Char) (l : List (List Char))
    (hx : x ∈ l) : infixOf x (joinCharLists sep l) := by
  induction l with
  | nil => cases hx
  | cons y ys ih =>
    rcases List.mem_cons.mp hx with rfl | hx
    · match ys with
      | [] => exact ⟨[], [], by simp [joinCharLists]⟩
      | z :: zs => exact ⟨[], sep ++ joinCharLists sep (z :: zs), by simp [joinCharLists]⟩
    · match ys with
      | [] => cases hx
      | z :: zs =>
        have h := ih hx
        obtain ⟨u, v, hv⟩ := h
        exact ⟨y ++ sep ++ u, v, by simp [joinCharLists, hv]⟩

theorem alistLookup_of_mem_nodup {V : Type} (k : String) (v : V)
    (l : List (String × V)) (hn : (l.map Prod.fst).Nodup) (hm : (k, v) ∈ l) :
    alistLookup k l = some v := by
  induction l with
  | nil => cases hm
  | cons hd tl ih =>
    obtain ⟨k₀, v₀⟩ := hd
    have hn2 : (∀ x : V, (k₀, x) ∉ tl) ∧ (List.map Prod.fst tl).Nodup := by
      simpa using hn
    rcases List.mem_cons.mp hm with heq | hm'
    · cases heq
      simp [alistLookup]
    · have hk : k₀ ≠ k := by
        rintro rfl
        exact hn2.1 v hm'
      simp only [alistLookup]
      rw [if_neg hk]
      exact ih hn2.2 hm'

theorem mem_of_alistLookup_eq_some {V : Type} (k : String) (v : V)
    (l : List (String × V)) (h : alistLookup k l = some v) : (k, v) ∈ l := by
  induction l with
  | nil => simp [alistLookup] at h
  | cons hd tl ih =>
    obtain ⟨k₀, v₀⟩ := hd
    by_cases hk : k₀ = k
    · subst hk
      simp only [alistLookup, if_pos rfl] at h
      cases h
      exact List.mem_cons_self _ _
    · simp only [alistLookup, hk, if_neg, ite_false] at h
      exact List.mem_cons_of_mem _ (ih h)

theorem upc_foldl_lookup_not_mem (ft : FeedbackType) (fb : List Char) (now : Nat) :
    ∀ (ids : List String) (mem : Memory) (id : String), id ∉ ids →
      alistLookup id ((ids.foldl (upcStep ft fb now) mem).entities) =
        alistLookup id mem.entities := by
  intro ids
  induction ids with
  | nil => intro mem id _; rfl
  | cons x xs ih =>
    intro mem id hid
    have hx : x ≠ id := fun h => hid (h ▸ List.mem_cons_self x xs)
    have hxs : id ∉ xs := fun h => hid (List.mem_cons_of_mem x h)
    simp only [List.foldl_cons]
    rw [ih _ id hxs]
    unfold upcStep
    cases hl : alistLookup x mem.entities with
    | none => rfl
    | some p => exact alistLookup_insert_ne x id _ _ (fun h => hx h.symm)

theorem upc_foldl_lookup_mem (ft : FeedbackType) (fb : List Char) (now : Nat) :
    ∀ (ids : List String) (mem : Memory) (id : String) (p : Entity),
      ids.Nodup → id ∈ ids → alistLookup id mem.entities = some p →
      alistLookup id ((ids.foldl (upcStep ft fb now) mem).entities) =
        some (applyFeedback ft now fb p) := by
  intro ids
  induction ids with
  | nil => intro mem id p _ hid; cases hid
  | cons x xs ih =>
    intro mem id p hnd hid hl
    rcases List.mem_cons.mp hid with rfl | hid'
    · have hxs : id ∉ xs := (List.nodup_cons.mp hnd).1
      simp only [List.foldl_cons]
      rw [upc_foldl_lookup_not_mem ft fb now xs _ id hxs]
      unfold upcStep
      rw [hl]
      exact alistLookup_insert_self id _ _
    · have hx : x ≠ id := by
        rintro rfl
        exact (List.nodup_cons.mp hnd).1 hid'
      simp only [List.foldl_cons]
      refine ih _ id p (List.nodup_cons.mp hnd).2 hid' ?_
      unfold upcStep
      cases hlx : alistLookup x mem.entities with
      | none => exact hl
      | some q =>
        rw [alistLookup_insert_ne x id _ _ (fun h => hx h.symm)]
        exact hl

theorem mark_foldl_lookup_not_mem (now : Nat) :
    ∀ (l : List (String × Entity)) (mem : Memory) (id : String),
      (∀ q ∈ l, q.1 ≠ id) →
      alistLookup id ((l.foldl (markStep now) mem).entities) =
        alistLookup id mem.entities := by
  intro l
  induction l with
  | nil => intro mem id _; rfl
  | cons x xs ih =>
    intro mem id hid
    simp only [List.foldl_cons]
    rw [ih _ id (fun q hq => hid q (List.mem_cons_of_mem x hq))]
    unfold markStep
    cases hl : alistLookup x.1 mem.entities with
    | none => rfl
    | some p =>
      exact alistLookup_insert_ne x.1 id _ _
        (fun h => hid x (List.mem_cons_self x xs) h.symm)

/-- The leading literal character a regex must consume first, if any. -/
def leadLit : RE → Option Char
  | .lit c => some c
  | .cat a _ => leadLit a
  | _ => none

theorem matchC_leadLit_none (c : Char) :
    ∀ r : RE, leadLit r = some c →
    ∀ (s : List Char) (caps : Caps) (k : Caps → List Char → MRes),
      (match s with | [] => True | x :: _ => x ≠ c) →
      matchC r s caps k = none := by
  intro r
  induction r with
  | eps => intro hr; cases hr
  | lit c' =>
    intro hr s caps k hs
    injection hr with hc
    subst hc
    cases s with
    | nil => rfl
    | cons x xs =>
      simp only [matchC]
      rw [if_neg hs]
  | cls cc => intro hr; cases hr
  | anchorEnd => intro hr; cases hr
  | cat a b iha ihb =>
    intro hr s caps k hs
    simp only [leadLit] at hr
    simp only [matchC]
    exact iha hr s caps _ hs
  | alt a b iha ihb => intro hr; cases hr
  | starL cc => intro hr; cases hr
  | starG cc => intro hr; cases hr
  | plusG cc => intro hr; cases hr
  | optG a ih => intro hr; cases hr
  | grp a ih => intro hr; cases hr

theorem matchAt_leadLit_none (r : RE) (c : Char) (hr : leadLit r = some c)
    (s : List Char) (hs : match s with | [] => True | x :: _ => x ≠ c) :
    matchAt r s = none :=
  matchC_leadLit_none c r hr s [] _ hs

theorem findAllAux_leadLit_ws (r : RE) (c : Char) (hr : leadLit r = some c)
    (hc : isSpaceChar c = false) :
    ∀ (fuel : Nat) (s : List Char), (∀ a ∈ s, isSpaceChar a = true) →
      findAllAux r fuel s = [] := by
  intro fuel
  induction fuel with
  | zero => intro s _; rfl
  | succ f ih =>
    intro s hs
    cases s with
    | nil =>
      simp only [findAllAux]
      rw [matchAt_leadLit_none r c hr [] trivial]
    | cons x xs =>
      have hx : x ≠ c := by
        intro h
        have hxs := hs x (List.mem_cons_self x xs)
        rw [h, hc] at hxs
        cases hxs
      simp only [findAllAux]
      rw [matchAt_leadLit_none r c hr (x :: xs) hx]
      exact ih xs (fun a ha => hs a (List.mem_cons_of_mem x ha))

theorem findAllFrom_leadLit_ws (r : RE) (c : Char) (hr : leadLit r = some c)
    (hc : isSpaceChar c = false) (s : List Char)
    (hs : ∀ a ∈ s, isSpaceChar a = true) : findAllFrom r s = [] :=
  findAllAux_leadLit_ws r c hr hc _ s hs

theorem containsSub_ws_false (c : Char) (w' : List Char)
    (hc : isSpaceChar c = false) :
    ∀ s : List Char, (∀ a ∈ s, isSpaceChar a = true) →
      containsSub (c :: w') s = false := by
  intro s
  induction s with
  | nil => intro _; rfl
  | cons x xs ih =>
    intro hs
    have hx := hs x (List.mem_cons_self x xs)
    have hne : ¬(c = x) := by
      intro h
      rw [h, hx] at hc
      cases hc
    simp only [containsSub, prefixOfB]
    rw [ih (fun a ha => hs a (List.mem_cons_of_mem x ha))]
    simp [hne]

theorem lowerChar_space (b : Char) (hb : isSpaceChar b = true) : lowerChar b = b := by
  simp only [isSpaceChar, decide_eq_true_eq] at hb
  rcases hb with h | h | h | h | h | h <;> subst h <;> decide

theorem lowerStr_ws (s : List Char) (hs : ∀ a ∈ s, isSpaceChar a = true) :
    ∀ a ∈ lowerStr s, isSpaceChar a = true := by
  intro a ha
  obtain ⟨b, hb, rfl⟩ := List.mem_map.mp ha
  rw [lowerChar_space b (hs b hb)]
  exact hs b hb

theorem detectCorrectionsEL_ws (s : List Char)
    (hs : ∀ a ∈ s, isSpaceChar a = true) : detectCorrectionsEL s = [] := by
  have hls := lowerStr_ws s hs
  have h1 : findAllFrom (pcat [strl dontW, .plusG .ws, .grp (.starL .dotNL), .lit ',',
      .starG .ws, .grp (.starG .dotNL)]) (lowerStr s) = [] :=
    findAllFrom_leadLit_ws _ 'd' (by rfl) (by rfl) _ hls
  have h2 : findAllFrom (pcat [strw "use", .plusG .ws, .grp (.starL .dotNL), .plusG .ws,
      strw "instead", .plusG .ws, strw "of", .plusG .ws, .grp (.starL .dotNL)])
      (lowerStr s) = [] :=
    findAllFrom_leadLit_ws _ 'u' (by rfl) (by rfl) _ hls
  have h3 : findAllFrom (pcat [strw "i", .plusG .ws, strw "prefer", .plusG .ws,
      .grp (.starG .dotNL)]) (lowerStr s) = [] :=
    findAllFrom_leadLit_ws _ 'i' (by rfl) (by rfl) _ hls
  have h4 : findAllFrom (pcat [strw "when", .plusG .ws, .grp (.starL .dotNL), .lit ',',
      .starG .ws, .grp (.starG .dotNL)]) (lowerStr s) = [] :=
    findAllFrom_leadLit_ws _ 'w' (by rfl) (by rfl) _ hls
  have h5 : findAllFrom (pcat [strw "always", .plusG .ws, .grp (.starG .dotNL)])
      (lowerStr s) = [] :=
    findAllFrom_leadLit_ws _ 'a' (by rfl) (by rfl) _ hls
  have h6 : findAllFrom (pcat [strw "never", .plusG .ws, .grp (.starG .dotNL)])
      (lowerStr s) = [] :=
    findAllFrom_leadLit_ws _ 'n' (by rfl) (by rfl) _ hls
  simp [detectCorrectionsEL, elPatterns, h1, h2, h3, h4, h5, h6]

theorem detectContextsEL_ws (s : List Char)
    (hs : ∀ a ∈ s, isSpaceChar a = true) : detectContextsEL s = ["general"] := by
  have hfilter : contextKeywordsEL.filter
      (fun p => p.2.any (fun kw => containsSub kw.data s)) = [] := by
    rw [List.filter_eq_nil_iff]
    intro p hp
    simp only [Bool.not_eq_true, List.any_eq_false]
    intro kw hkw
    fin_cases hp <;> fin_cases hkw <;>
      exact containsSub_ws_false _ _ (by decide) s hs
  simp [detectContextsEL, hfilter]

theorem mark_foldl_lookup_mem (now : Nat) :
    ∀ (l : List (String × Entity)) (mem : Memory) (id : String) (q p : Entity),
      (l.map Prod.fst).Nodup → (id, q) ∈ l →
      alistLookup id mem.entities = some p →
      alistLookup id ((l.foldl (markStep now) mem).entities) =
        some (markPromotedEntity now q.confidence p) := by
  intro l
  induction l with
  | nil => intro mem id q p _ hm; cases hm
  | cons x xs ih =>
    intro mem id q p hnd hm hl
    have hnd2 : (∀ e : Entity, (x.1, e) ∉ xs) ∧ (List.map Prod.fst xs).Nodup := by
      simpa using hnd
    rcases List.mem_cons.mp hm with heq | hm'
    · cases heq
      have hxs : ∀ r ∈ xs, r.1 ≠ id := by
        intro r hr hre
        apply hnd2.1 r.2
        show (id, r.2) ∈ xs
        rw [← hre]
        exact hr
      simp only [List.foldl_cons]
      rw [mark_foldl_lookup_not_mem now xs _ id hxs]
      unfold markStep
      rw [hl]
      exact alistLookup_insert_self id _ _
    · have hx : x.1 ≠ id := by
        intro hre
        exact hnd2.1 q (by rw [hre]; exact hm')
      simp only [List.foldl_cons]
      refine ih _ id q p hnd2.2 hm' ?_
      unfold markStep
      cases hlx : alistLookup x.1 mem.entities with
      | none => exact hl
      | some r =>
        rw [alistLookup_insert_ne x.1 id _ _ (fun h => hx h.symm)]
        exact hl

theorem confDescLe_total : ∀ a b, confDescLe a b = true ∨ confDescLe b a = true := by
  intro a b
  rcases le_total b.2.confidence a.2.confidence with h | h
  · left; simpa [confDescLe] using h
  · right; simpa [confDescLe] using h

theorem confDescLe_trans : ∀ a b c, confDescLe a b = true → confDescLe b c = true →
    confDescLe a c = true := by
  intro a b c hab hbc
  simp only [confDescLe, decide_eq_true_eq] at hab hbc ⊢
  exact le_trans hbc hab

theorem clamp01_mem (x : ℚ) : 0 ≤ clamp01 x ∧ clamp01 x ≤ 1 := by
  constructor
  · exact le_max_left 0 _
  · apply max_le
    · norm_num
    · exact min_le_left 1 x

theorem foldl_conf_bounds {β : Type} (f : Entity → β → Entity)
    (hf : ∀ p e, 0 ≤ (f p e).confidence ∧ (f p e).confidence ≤ 1) :
    ∀ (l : List β) (p : Entity), l ≠ [] →
      0 ≤ (l.foldl f p).confidence ∧ (l.foldl f p).confidence ≤ 1 := by
  have key : ∀ (l : List β) (p : Entity),
      0 ≤ p.confidence ∧ p.confidence ≤ 1 →
      0 ≤ (l.foldl f p).confidence ∧ (l.foldl f p).confidence ≤ 1 := by
    intro l
    induction l with
    | nil => intro p hp; simpa using hp
    | cons x xs ih => intro p _; simpa using ih (f p x) (hf p x)
  intro l p hl
  match l, hl with
  | x :: xs, _ => simpa using key xs (f p x) (hf p x)

/-! ### Concrete stores used by witnesses and examples -/

/-- The synthetic pattern of the spec's promotion example: confidence 0.95,
applied 6, succeeded 5. -/
def p095 : Entity :=
  { typ := "user_correction", correction_type := "always_rule",
    pattern := ["run tests".data], original_text := "always run tests".data,
    context := ["testing"], confidence := (19 : ℚ)/20, created := 1,
    applied_count := 6, success_count := 5 }

/-- The same pattern with only 4 applications. -/
def p095app4 : Entity := { p095 with applied_count := 4 }

/-- The same pattern with success 3 of 6. -/
def p095succ3 : Entity := { p095 with success_count := 3 }

def memC2 : Memory := ⟨[("a", p095), ("b", p095app4), ("c", p095succ3)], 0⟩

/-! ### Claim theorems -/

/-- C9: loading the pattern store from a missing or unparsable backing
document yields the fresh empty structure in both loaders
(`memory_learn.load_memory` and the `enhanced_learn` prologue); the
loaders are total functions, so no error propagates to the caller. -/
theorem c9_load_defaults :
    loadMemoryML .missing = emptyMemory ∧ loadMemoryML .corrupt = emptyMemory ∧
    loadMemoryEL .missing = emptyMemory ∧ loadMemoryEL .corrupt = emptyMemory :=
  ⟨rfl, rfl, rfl, rfl⟩

/-- C3: confidence stays within [0,1] after every update, for any sequence
of tracker feedback applications (any types, any order, in particular
repeated corrections) and for any sequence of `memory_learn` adjustments;
every intermediate state is the fold of a prefix, so the bound holds after
each single update. -/
theorem c3_confidence_bounds :
    (∀ (p : Entity) (seq : List (FeedbackType × Nat × List Char)), seq ≠ [] →
      0 ≤ (seq.foldl (fun q e => applyFeedback e.1 e.2.1 e.2.2 q) p).confidence ∧
        (seq.foldl (fun q e => applyFeedback e.1 e.2.1 e.2.2 q) p).confidence ≤ 1) ∧
    (∀ (p : Entity) (adjs : List (ℚ × Nat)), adjs ≠ [] →
      0 ≤ (adjs.foldl (fun q e => mlApplyAdjustment e.1 e.2 q) p).confidence ∧
        (adjs.foldl (fun q e => mlApplyAdjustment e.1 e.2 q) p).confidence ≤ 1) := by
  constructor
  · intro p seq hs
    refine foldl_conf_bounds _ ?_ seq p hs
    intro q e
    show 0 ≤ clamp01 (q.confidence + adjustment e.1) ∧
      clamp01 (q.confidence + adjustment e.1) ≤ 1
    exact clamp01_mem _
  · intro p adjs hs
    refine foldl_conf_bounds _ ?_ adjs p hs
    intro q e
    show 0 ≤ max 0 (min 1 (q.confidence + e.1)) ∧
      max 0 (min 1 (q.confidence + e.1)) ≤ 1
    exact clamp01_mem _

def seqC3 : List (FeedbackType × Nat × List Char) :=
  [(.correction, 1, []), (.correction, 2, []), (.correction, 3, []),
   (.correction, 4, []), (.correction, 5, [])]

theorem c3_confidence_bounds_witness :
    (0 ≤ (seqC3.foldl (fun q e => applyFeedback e.1 e.2.1 e.2.2 q) p095).confidence ∧
      (seqC3.foldl (fun q e => applyFeedback e.1 e.2.1 e.2.2 q) p095).confidence ≤ 1) ∧
    (0 ≤ ([(-((1 : ℚ)/4), 9)].foldl (fun q e => mlApplyAdjustment e.1 e.2 q) p095).confidence ∧
      ([(-((1 : ℚ)/4), 9)].foldl (fun q e => mlApplyAdjustment e.1 e.2 q) p095).confidence ≤ 1) :=
  ⟨c3_confidence_bounds.1 p095 seqC3 (by simp [seqC3]),
   c3_confidence_bounds.2 p095 _ (by simp)⟩

/-- C2: a stored pattern record (`user_correction` entity) appears in the
promotable list iff `confidence ≥ 0.9`, `applied_count ≥ 5` and
`success_count / applied_count ≥ 0.8`; the list is sorted descending by
confidence; the spec's synthetic instances behave as stated. -/
theorem c2_promotability :
    (∀ (mem : Memory) (id : String) (p : Entity),
      (id, p) ∈ mem.entities → p.typ = "user_correction" →
      ((id, p) ∈ getPromotable mem ↔
        ((9 : ℚ)/10 ≤ p.confidence ∧ 5 ≤ p.applied_count ∧
          (4 : ℚ)/5 ≤ (p.success_count : ℚ) / (p.applied_count : ℚ)))) ∧
    (∀ mem : Memory,
      (getPromotable mem).Pairwise (fun a b => b.2.confidence ≤ a.2.confidence)) ∧
    ("a", p095) ∈ getPromotable memC2 ∧
    ("b", p095app4) ∉ getPromotable memC2 ∧
    ("c", p095succ3) ∉ getPromotable memC2 := by
  refine ⟨?_, ?_, ?_, ?_, ?_⟩
  · intro mem id p hmem htyp
    unfold getPromotable
    rw [(stableSortBy_perm confDescLe _).mem_iff, List.mem_filter]
    constructor
    · rintro ⟨-, hpred⟩
      simp only [promotablePred, Bool.and_eq_true, decide_eq_true_eq] at hpred
      obtain ⟨⟨⟨-, hconf⟩, happ⟩, hrate⟩ := hpred
      have hmax : max 1 p.applied_count = p.applied_count := by omega
      rw [hmax] at hrate
      exact ⟨hconf, happ, hrate⟩
    · rintro ⟨hconf, happ, hrate⟩
      refine ⟨hmem, ?_⟩
      simp only [promotablePred, Bool.and_eq_true, decide_eq_true_eq]
      have hmax : max 1 p.applied_count = p.applied_count := by omega
      exact ⟨⟨⟨htyp, hconf⟩, happ⟩, by rw [hmax]; exact hrate⟩
  · intro mem
    have hp := pairwise_stableSortBy confDescLe confDescLe_total confDescLe_trans
      (mem.entities.filter (fun e => promotablePred e.2))
    exact hp.imp (fun h => by simpa [confDescLe] using h)
  · with_unfolding_all decide
  · with_unfolding_all decide
  · with_unfolding_all decide

theorem c2_promotability_witness :
    ("a", p095) ∈ getPromotable memC2 ∧ (9 : ℚ)/10 ≤ p095.confidence := by
  constructor
  · exact (c2_promotability.1 memC2 "a" p095 (by with_unfolding_all decide) rfl).mpr
      (by with_unfolding_all decide)
  · with_unfolding_all decide

/-- C8: after a non-dry-run promote at time `now`, the backup taken by
that promote holds exactly the pre-promotion rules document, and rolling
back to that backup restores the rules document byte-identically
(contents are `List Char`, so equality is byte identity). -/
theorem c8_rollback_restores (st : SysState) (now : Nat) (c : List Char)
    (hdoc : st.claudeMd = some c) (hp : getPromotable st.memory ≠ []) :
    alistLookup (backupName now) (updateClaudeMd st now false).1.backups = some c ∧
    (rollbackToBackup (updateClaudeMd st now false).1 (backupName now)).1.claudeMd =
      some c := by
  unfold updateClaudeMd
  rw [if_neg hp, hdoc]
  have hb : alistLookup (backupName now) (alistInsert (backupName now) c st.backups) =
      some c := alistLookup_insert_self _ _ _
  constructor
  · simpa using hb
  · simp [rollbackToBackup, hb]

def docC8 : List Char := "# Repo rules\n## Testing\nrun things\n".data

def stC8 : SysState := ⟨memC2, some docC8, []⟩

theorem c8_rollback_restores_witness :
    (rollbackToBackup (updateClaudeMd stC8 7 false).1 (backupName 7)).1.claudeMd =
      some docC8 :=
  (c8_rollback_restores stC8 7 docC8 rfl (by with_unfolding_all decide)).2

theorem mem_queryTypeFilter (ct : Option String) (l : List Entity) (e : Entity) :
    e ∈ queryTypeFilter ct l ↔
      e ∈ l ∧ (∀ t, ct = some t → e.correction_type = t) := by
  cases ct with
  | none => simp [queryTypeFilter]
  | some t => simp [queryTypeFilter, List.mem_filter]

theorem mem_queryContextFilter (kws : List String) (l : List Entity) (e : Entity) :
    e ∈ queryContextFilter kws l ↔
      e ∈ l ∧ (kws = [] ∨ ∃ kw ∈ kws, lowerString kw ∈ e.context.map lowerString) := by
  by_cases hk : kws = []
  · subst hk
    simp [queryContextFilter]
  · simp only [queryContextFilter, if_neg hk, List.mem_filter, List.any_eq_true,
      List.mem_map]
    constructor
    · rintro ⟨hmem, kw, ⟨kw₀, hkw₀, rfl⟩, hc⟩
      exact ⟨hmem, Or.inr ⟨kw₀, hkw₀, by simpa using hc⟩⟩
    · rintro ⟨hmem, h | ⟨kw₀, hkw₀, hc⟩⟩
      · exact absurd h hk
      · exact ⟨hmem, lowerString kw₀, ⟨kw₀, hkw₀, rfl⟩, by simpa using hc⟩

def lowConf : Entity :=
  { typ := "user_correction", correction_type := "always_rule",
    pattern := ["run tests".data], context := ["coding"], confidence := (1 : ℚ)/2,
    created := 2 }

def memC6 : Memory := ⟨[("low", lowConf)], 0⟩

/-- C6 counterexample: the claim requires query results to be restricted
to confidence strictly above 0.6, but `query_patterns` applies no
confidence threshold: a tag-matching pattern with confidence 0.5 is
returned. -/
theorem c6_counterexample :
    lowConf ∈ queryPatterns memC6 ["coding"] none ∧
    lowConf.confidence ≤ (6 : ℚ)/10 := by
  with_unfolding_all decide

/-- C6 (amended): `query_patterns` returns exactly the stored
`user_correction` entities whose context tags intersect the supplied tags
(all of them when no tags are supplied), optionally filtered to one
category, sorted descending by confidence, with NO confidence threshold;
the `confidence > 0.6` restriction lives in
`memory_learn.query_relevant_patterns`, which filters by tag overlap and
that threshold but does not sort and returns nothing when no tags are
supplied.  Both are pure functions of the store. -/
theorem c6_query_characterisation :
    (∀ (mem : Memory) (kws : List String) (ct : Option String) (e : Entity),
      e ∈ queryPatterns mem kws ct ↔
        (e ∈ mem.entities.map Prod.snd ∧ e.typ = "user_correction" ∧
          (kws = [] ∨ ∃ kw ∈ kws, lowerString kw ∈ e.context.map lowerString) ∧
          (∀ t, ct = some t → e.correction_type = t))) ∧
    (∀ (mem : Memory) (kws : List String) (ct : Option String),
      (queryPatterns mem kws ct).Pairwise (fun a b => b.confidence ≤ a.confidence)) ∧
    (∀ (mem : Memory) (ctx : List String) (e : Entity),
      e ∈ queryRelevantPatterns mem ctx ↔
        (e ∈ mem.entities.map Prod.snd ∧ e.typ = "user_correction" ∧
          (∃ c ∈ e.context, c ∈ ctx) ∧ (6 : ℚ)/10 < e.confidence)) ∧
    (∀ mem : Memory, queryRelevantPatterns mem [] = []) := by
  refine ⟨?_, ?_, ?_, ?_⟩
  · intro mem kws ct e
    unfold queryPatterns
    rw [(stableSortBy_perm _ _).mem_iff, mem_queryTypeFilter, mem_queryContextFilter,
      List.mem_filter]
    simp only [decide_eq_true_eq]
    tauto
  · intro mem kws ct
    unfold queryPatterns
    refine (pairwise_stableSortBy _ ?_ ?_ _).imp (fun h => by simpa using h)
    · intro a b
      rcases le_total b.confidence a.confidence with h | h
      · left; simpa using h
      · right; simpa using h
    · intro a b c hab hbc
      simp only [decide_eq_true_eq] at hab hbc ⊢
      exact le_trans hbc hab
  · intro mem ctx e
    simp only [queryRelevantPatterns, List.mem_filter, Bool.and_eq_true,
      decide_eq_true_eq, List.any_eq_true, List.elem_iff]
    tauto
  · intro mem
    rw [queryRelevantPatterns, List.filter_eq_nil_iff]
    intro e _
    simp

/-- C1: feedback classification precedence (explicit correction phrasing
first; otherwise negative exactly on a strict majority of
negative-keyword hits; otherwise positive exactly when some positive hit
exists; otherwise neutral), the delta table (+0.10, +0.00, −0.15, −0.25),
and the per-id update: for every supplied id present in the store,
confidence becomes `clamp(old + delta)`, `applied_count` gains one,
`success_count` gains one exactly for positive/neutral, `last_updated` is
stamped, and exactly one `feedback_history` entry (with the first 100
characters of the feedback) is appended. -/
theorem c1_feedback_classification_update :
    (∀ text : List Char,
      ((detectFeedbackType text = .correction) ↔
        correctionPairs.any (fun p => searchFrom (seqRE p.1 p.2) (lowerStr text)) = true) ∧
      (correctionPairs.any (fun p => searchFrom (seqRE p.1 p.2) (lowerStr text)) = false →
        (((detectFeedbackType text = .negative) ↔
            keywordHits positiveKeywords (lowerStr text) <
              keywordHits negativeKeywords (lowerStr text)) ∧
          ((detectFeedbackType text = .positive) ↔
            (keywordHits negativeKeywords (lowerStr text) ≤
              keywordHits positiveKeywords (lowerStr text) ∧
             0 < keywordHits positiveKeywords (lowerStr text))) ∧
          ((detectFeedbackType text = .neutral) ↔
            (keywordHits negativeKeywords (lowerStr text) ≤
              keywordHits positiveKeywords (lowerStr text) ∧
             keywordHits positiveKeywords (lowerStr text) = 0))))) ∧
    (adjustment .positive = (1 : ℚ)/10 ∧ adjustment .neutral = 0 ∧
      adjustment .negative = -((3 : ℚ)/20) ∧ adjustment .correction = -((1 : ℚ)/4)) ∧
    (∀ (mem : Memory) (ids : List String) (fb : List Char) (now : Nat)
        (id : String) (p : Entity), ids.Nodup → id ∈ ids →
      alistLookup id mem.entities = some p →
      alistLookup id (updatePatternConfidence mem ids fb now).entities =
        some { p with
          confidence := clamp01 (p.confidence + adjustment (detectFeedbackType fb)),
          last_updated := some now,
          applied_count := p.applied_count + 1,
          success_count :=
            if detectFeedbackType fb = .positive ∨ detectFeedbackType fb = .neutral
            then p.success_count + 1 else p.success_count,
          feedback_history := p.feedback_history ++
            [⟨(detectFeedbackType fb).name, adjustment (detectFeedbackType fb), now,
              fb.take 100⟩] }) := by
  refine ⟨?_, ⟨rfl, rfl, rfl, rfl⟩, ?_⟩
  · intro text
    rcases Bool.dichotomy (correctionPairs.any
        (fun p => searchFrom (seqRE p.1 p.2) (lowerStr text))) with hc | hc
    · have hd : detectFeedbackType text =
          (if keywordHits positiveKeywords (lowerStr text) <
              keywordHits negativeKeywords (lowerStr text) then FeedbackType.negative
           else if 0 < keywordHits positiveKeywords (lowerStr text) then .positive
           else .neutral) := by
        simp only [detectFeedbackType]
        rw [hc]
        simp [keywordHits]
      by_cases h1 : keywordHits positiveKeywords (lowerStr text) <
          keywordHits negativeKeywords (lowerStr text)
      · refine ⟨?_, fun _ => ⟨?_, ?_, ?_⟩⟩ <;> rw [hd] <;> simp [h1, hc] <;> omega
      · by_cases h2 : 0 < keywordHits positiveKeywords (lowerStr text)
        · refine ⟨?_, fun _ => ⟨?_, ?_, ?_⟩⟩ <;> rw [hd] <;> simp [h1, h2, hc] <;> omega
        · refine ⟨?_, fun _ => ⟨?_, ?_, ?_⟩⟩ <;> rw [hd] <;> simp [h1, h2, hc] <;> omega
    · refine ⟨?_, ?_⟩
      · simp only [detectFeedbackType]
        rw [hc]
        simp
      · intro h
        rw [h] at hc
        cases hc
  · intro mem ids fb now id p hnd hmem hl
    exact upc_foldl_lookup_mem (detectFeedbackType fb) fb now ids mem id p hnd hmem hl

def entC1 : Entity :=
  { typ := "user_correction", correction_type := "use_instead_of",
    pattern := ["X".data, "Y".data], confidence := (1 : ℚ)/2, created := 3,
    applied_count := 2, success_count := 1 }

def memC1 : Memory := ⟨[("p1", entC1)], 0⟩

def fbC1 : List Char := "Actually, use X instead".data

theorem infixOf_embed (a b x y : List Char) (h : infixOf a b) :
    infixOf a (x ++ b ++ y) := by
  obtain ⟨u, v, rfl⟩ := h
  exact ⟨x ++ u, v ++ y, by simp⟩

theorem markPromotedEntity_typ (now : Nat) (conf : ℚ) (p : Entity) :
    (markPromotedEntity now conf p).typ = p.typ := rfl

theorem markPromotedEntity_confidence (now : Nat) (conf : ℚ) (p : Entity) :
    (markPromotedEntity now conf p).confidence = p.confidence := rfl

theorem markPromotedEntity_applied (now : Nat) (conf : ℚ) (p : Entity) :
    (markPromotedEntity now conf p).applied_count = p.applied_count := rfl

theorem markPromotedEntity_success (now : Nat) (conf : ℚ) (p : Entity) :
    (markPromotedEntity now conf p).success_count = p.success_count := rfl

/-- The promotability filter reads only fields that marking leaves
untouched: marking a pattern promoted does not change its promotability. -/
theorem promotablePred_markPromotedEntity (now : Nat) (conf : ℚ) (p : Entity) :
    promotablePred (markPromotedEntity now conf p) = promotablePred p := by
  unfold promotablePred
  rw [markPromotedEntity_typ, markPromotedEntity_confidence,
    markPromotedEntity_applied, markPromotedEntity_success]

/-- C10: promotion does not exclude a pattern from later scans — the
promotability filter never reads the promoted flag.  After a full
non-dry-run promote, a pattern that satisfied the predicate is marked
promoted, still satisfies the predicate, is again among the promotable
patterns of the updated store, and its rendered rule is in the new rules
document; since the resulting state satisfies the same hypotheses, every
subsequent promote run returns, re-renders and re-marks it again. -/
theorem c10_repromotion (st : SysState) (now : Nat) (c : List Char)
    (id : String) (p : Entity)
    (hnodup : (st.memory.entities.map Prod.fst).Nodup)
    (hdoc : st.claudeMd = some c)
    (hmem : alistLookup id st.memory.entities = some p)
    (hpred : promotablePred p = true) :
    alistLookup id (updateClaudeMd st now false).1.memory.entities =
      some (markPromotedEntity now p.confidence p) ∧
    (markPromotedEntity now p.confidence p).promoted_to_claude_md = true ∧
    promotablePred (markPromotedEntity now p.confidence p) = true ∧
    id ∈ ((getPromotable (updateClaudeMd st now false).1.memory).map Prod.fst) ∧
    (∃ doc, (updateClaudeMd st now false).1.claudeMd = some doc ∧
      infixOf (ruleLine p) doc) := by
  have hmm : (id, p) ∈ st.memory.entities := mem_of_alistLookup_eq_some id p _ hmem
  have hfilt : (id, p) ∈ st.memory.entities.filter (fun e => promotablePred e.2) :=
    List.mem_filter.mpr ⟨hmm, hpred⟩
  have hprom : (id, p) ∈ getPromotable st.memory := by
    unfold getPromotable
    exact ((stableSortBy_perm _ _).mem_iff).mpr hfilt
  have hne : getPromotable st.memory ≠ [] := List.ne_nil_of_mem hprom
  have hkeys : ((getPromotable st.memory).map Prod.fst).Nodup := by
    have hperm : (getPromotable st.memory).Perm
        (st.memory.entities.filter (fun e => promotablePred e.2)) :=
      stableSortBy_perm _ _
    have hsub : ((st.memory.entities.filter
        (fun e => promotablePred e.2)).map Prod.fst).Nodup :=
      hnodup.sublist ((List.filter_sublist _).map Prod.fst)
    exact (hperm.map Prod.fst).nodup_iff.mpr hsub
  have hupd : (updateClaudeMd st now false).1 =
      { memory := markPatternsPromoted (getPromotable st.memory) now st.memory,
        claudeMd := some (c.take (findInsertionPoint c).1 ++
          learnedSection ((getPromotable st.memory).map (fun pd => ruleLine pd.2)) now ++
          c.drop (findInsertionPoint c).2),
        backups := alistInsert (backupName now) c st.backups } := by
    unfold updateClaudeMd
    rw [if_neg hne, hdoc]
    rfl
  rw [hupd]
  clear hupd
  have hlook : alistLookup id
      (markPatternsPromoted (getPromotable st.memory) now st.memory).entities =
      some (markPromotedEntity now p.confidence p) :=
    mark_foldl_lookup_mem now (getPromotable st.memory) st.memory id p p hkeys hprom hmem
  have hpred' : promotablePred (markPromotedEntity now p.confidence p) = true := by
    rw [promotablePred_markPromotedEntity]
    exact hpred
  refine ⟨hlook, rfl, hpred', ?_, ?_⟩
  · have hmm' : (id, markPromotedEntity now p.confidence p) ∈
        (markPatternsPromoted (getPromotable st.memory) now st.memory).entities :=
      mem_of_alistLookup_eq_some _ _ _ hlook
    have hfilt' : (id, markPromotedEntity now p.confidence p) ∈
        (markPatternsPromoted (getPromotable st.memory) now st.memory).entities.filter
          (fun e => promotablePred e.2) :=
      List.mem_filter.mpr ⟨hmm', hpred'⟩
    have hprom' : (id, markPromotedEntity now p.confidence p) ∈
        getPromotable (markPatternsPromoted (getPromotable st.memory) now st.memory) := by
      unfold getPromotable
      exact ((stableSortBy_perm _ _).mem_iff).mpr hfilt'
    exact List.mem_map_of_mem Prod.fst hprom'
  · refine ⟨_, rfl, ?_⟩
    have hrule : ruleLine p ∈ (getPromotable st.memory).map (fun pd => ruleLine pd.2) := by
      have h := List.mem_map_of_mem (fun pd => ruleLine pd.2) hprom
      exact h
    have hj : infixOf (ruleLine p)
        (learnedSection ((getPromotable st.memory).map (fun pd => ruleLine pd.2)) now) := by
      unfold learnedSection
      exact infixOf_embed _ _ _ _ (infixOf_joinCharLists _ _ _ hrule)
    exact infixOf_embed _ _ _ _ hj

theorem c10_repromotion_witness :
    "a" ∈ ((getPromotable (updateClaudeMd stC8 11 false).1.memory).map Prod.fst) :=
  (c10_repromotion stC8 11 docC8 "a" p095 (by with_unfolding_all decide)
    rfl (by with_unfolding_all decide) (by with_unfolding_all decide)).2.2.2.1

theorem c1_feedback_classification_update_witness :
    alistLookup "p1" (updatePatternConfidence memC1 ["p1"] fbC1 9).entities =
      some { entC1 with
        confidence := clamp01 (entC1.confidence + adjustment (detectFeedbackType fbC1)),
        last_updated := some 9,
        applied_count := entC1.applied_count + 1,
        success_count :=
          if detectFeedbackType fbC1 = .positive ∨ detectFeedbackType fbC1 = .neutral
          then entC1.success_count + 1 else entC1.success_count,
        feedback_history := entC1.feedback_history ++
          [⟨(detectFeedbackType fbC1).name, adjustment (detectFeedbackType fbC1), 9,
            fbC1.take 100⟩] } :=
  c1_feedback_classification_update.2.2 memC1 ["p1"] fbC1 9 "p1" entC1
    (by simp) (by simp) (by with_unfolding_all decide)

/-- C4 counterexample: running learn/extract on the empty string does not
leave the store unchanged — the else-branch stores a general-observation
record (the claim's "no record of any type is created" fails). -/
theorem c4_counterexample :
    enhancedLearn emptyMemory [] 0 ≠ emptyMemory ∧
    (enhancedLearn emptyMemory [] 0).entities.length = 1 := by
  with_unfolding_all decide

/-- C4 (amended): extracting from an empty or whitespace-only string
yields zero correction candidates and modifies no counter and no existing
record, but it does mutate the store: exactly one general-observation
record (context `["general"]`, carrying the input) is written under the
`observation_<timestamp>` key. -/
theorem c4_whitespace_input (s : List Char) (hs : ∀ a ∈ s, isSpaceChar a = true)
    (mem : Memory) (now : Nat) :
    detectCorrectionsEL s = [] ∧
    (enhancedLearn mem s now).statsTotalCorrections = mem.statsTotalCorrections ∧
    alistLookup (observationId now) (enhancedLearn mem s now).entities =
      some (mkObservationEL now s ["general"]) ∧
    (∀ k, k ≠ observationId now →
      alistLookup k (enhancedLearn mem s now).entities = alistLookup k mem.entities) := by
  have hdc := detectCorrectionsEL_ws s hs
  have hctx : detectContextsEL (lowerStr s) = ["general"] :=
    detectContextsEL_ws (lowerStr s) (lowerStr_ws s hs)
  have hel : enhancedLearn mem s now =
      { mem with
        entities :=
          alistInsert (observationId now) (mkObservationEL now s ["general"])
            mem.entities } := by
    unfold enhancedLearn
    rw [hdc, hctx]
    rfl
  refine ⟨hdc, ?_, ?_, ?_⟩
  · rw [hel]
  · rw [hel]
    exact alistLookup_insert_self _ _ _
  · intro k hk
    rw [hel]
    exact alistLookup_insert_ne _ _ _ _ hk

theorem c4_whitespace_input_witness :
    detectCorrectionsEL [' '] = [] ∧
    (enhancedLearn emptyMemory [' '] 3).statsTotalCorrections =
      emptyMemory.statsTotalCorrections ∧
    alistLookup (observationId 3) (enhancedLearn emptyMemory [' '] 3).entities =
      some (mkObservationEL 3 [' '] ["general"]) ∧
    (∀ k, k ≠ observationId 3 →
      alistLookup k (enhancedLearn emptyMemory [' '] 3).entities =
        alistLookup k emptyMemory.entities) :=
  c4_whitespace_input [' '] (by decide) emptyMemory 3

def helloW : List Char := "hello world".data

def dontTabs : List Char := ['d', 'o', 'n', aposC, 't'] ++ " use tabs, use spaces".data

/-- C5: the cross-call id-uniqueness the claim requires fails in the code.
Ids are derived from the second-resolution `%Y%m%d_%H%M%S` timestamp
(despite the inline comment claiming microsecond uniqueness), so two learn
calls on the same text within one second produce the same id and the
second call overwrites the first: one stored record remains where the
claim requires two.  In a later second two records are stored; for a
correction input the corrections counter is still bumped twice although
only one record remains. -/
theorem c5_same_second_id_collision :
    (enhancedLearn (enhancedLearn emptyMemory helloW 20250101) helloW
      20250101).entities.length = 1 ∧
    (enhancedLearn (enhancedLearn emptyMemory helloW 20250101) helloW
      20250102).entities.length = 2 ∧
    (enhancedLearn (enhancedLearn emptyMemory dontTabs 20250101) dontTabs
      20250101).entities.length = 1 ∧
    (enhancedLearn (enhancedLearn emptyMemory dontTabs 20250101) dontTabs
      20250101).statsTotalCorrections = 2 := by
  with_unfolding_all decide

/-- The spec's unclamped extraction-confidence formula: base 0.7 plus the
category boost, +0.1 for an imperative keyword, +0.05 for clause
punctuation.  Modelled from the spec sentence for comparison with the
code's `_calculate_confidence`. -/
def specRawConfidence (correctionType : String) (message : List Char) : ℚ :=
  (7 : ℚ)/10 + confidenceBoost correctionType +
  (if imperativeWords.any (fun w => containsSub w message) then (1 : ℚ)/10 else 0) +
  (if containsSub [','] message || containsSub ['.'] message then (1 : ℚ)/20 else 0)

def c7msgRaw : List Char :=
  ['d', 'o', 'n', aposC, 't'] ++ " skip tests, always run the tests.".data

/-- C7 counterexample: the claim says extraction-time confidence is not
clamped and stays ≤ 1 by construction of the boosts; in the code the raw
sum reaches 1.05 (avoid-and-replace boost 0.2 plus imperative keyword
plus punctuation) and the result is clamped to 1.0 by the final `min`;
the detector indeed emits such a clamped candidate. -/
theorem c7_counterexample :
    specRawConfidence "dont_do_instead" (stripChars (lowerStr c7msgRaw)) = (21 : ℚ)/20 ∧
    calculateConfidence "dont_do_instead" (stripChars (lowerStr c7msgRaw)) = 1 ∧
    ¬((21 : ℚ)/20 ≤ 1) ∧
    (detectCorrectionsACD c7msgRaw).any
      (fun c => decide (c.ctype = "dont_do_instead") && decide (c.confidence = 1)) = true := by
  with_unfolding_all decide

def exampleText : List Char :=
  ['D', 'o', 'n', aposC, 't'] ++ " use inline imports, use module-level imports instead.".data

/-- C7 (amended): extraction-time confidence equals
`min(1, 0.7 + category boost + imperative bonus + punctuation bonus)` —
the raw sum can exceed 1, so the final clamp is load-bearing; the boosts
for the cited categories are +0.2 (avoid-and-replace, use-instead-of) and
+0.1 (always/never rules); and the spec's example input yields an
avoid-and-replace (`dont_do_instead`) candidate with the expected
fragments, confidence 0.95 ≥ 0.9 and a `coding` context tag. -/
theorem c7_confidence_formula :
    (∀ (ct : String) (msg : List Char),
      calculateConfidence ct msg = min 1 (specRawConfidence ct msg)) ∧
    (confidenceBoost "dont_do_instead" = (1 : ℚ)/5 ∧
      confidenceBoost "use_instead" = (1 : ℚ)/5 ∧
      confidenceBoost "always_rule" = (1 : ℚ)/10 ∧
      confidenceBoost "never_rule" = (1 : ℚ)/10) ∧
    (∃ cand ∈ detectCorrectionsACD exampleText,
      cand.ctype = "dont_do_instead" ∧
      cand.fragments = ["use inline imports".data,
        "use module-level imports instead".data] ∧
      (9 : ℚ)/10 ≤ cand.confidence ∧ "coding" ∈ cand.context) := by
  refine ⟨?_, ⟨rfl, rfl, rfl, rfl⟩, ?_⟩
  · intro ct msg
    by_cases h1 : imperativeWords.any (fun w => containsSub w msg) = true <;>
      by_cases h2 : (containsSub [','] msg || containsSub ['.'] msg) = true <;>
        simp [calculateConfidence, specRawConfidence, h1, h2] <;> ring_nf
  · refine ⟨⟨"dont_do_instead",
      ["use inline imports".data, "use module-level imports instead".data],
      (19 : ℚ)/20, ["coding"]⟩, ?_, rfl, rfl, ?_, ?_⟩
    · with_unfolding_all decide
    · with_unfolding_all decide
    · simp

end PatternLearning
